import Mathlib

/-!
Shallow embedding of the peer-lifecycle core of `wg_core.py`:
address allocation (`_used_ips`, `_next_free_ip`), name sanitization,
`add_peer`, `revoke_peer` and `get_peer_conf_path`, together with a small
world model of the four mutable locations the code touches (the live
interface peer table, the persisted interface file `wg0.conf`, the
per-peer artifact files under `clients/`, and the JSON peer store).
External commands (`wg`, `wg-quick`) are modelled by explicit oracle
inputs recording whether they succeed.
-/

namespace WgCore

/-- An IPv4 address as four octets.  The Python code handles addresses as
dotted strings produced by `ipaddress`; equality of those strings on the
addresses in play is equality of the parsed octets. -/
structure IPv4 where
  a : Nat
  b : Nat
  c : Nat
  d : Nat
deriving DecidableEq, Repr

/-- Host `k` of the fixed subnet `SUBNET_CIDR = "10.8.0.0/24"` (line 22). -/
def mkHost (k : Nat) : IPv4 := ⟨10, 8, 0, k⟩

/-- The reserved server address: the first host of the subnet, `10.8.0.1`
(`_used_ips`, line 157, and the install path, line 120). -/
def serverIp : IPv4 := mkHost 1

/-- The hosts of `10.8.0.0/24` in the ascending order `ipaddress`
enumerates them: `10.8.0.1` up to `10.8.0.254`. -/
def subnetHosts : List IPv4 := (List.range 254).map (fun i => mkHost (i + 1))

/-- Embedding of `_used_ips` (lines 154-175): the union of the reserved
server address, the addresses reported for live peers by
`wg show wg0 allowed-ips`, and the addresses parsed from the `Address`
lines of the artifact files in `clients/`.  The two external sources are
passed as the lists of addresses they yield. -/
def used_ips (liveIps fileIps : List IPv4) : List IPv4 :=
  serverIp :: (liveIps ++ fileIps)

/-- Embedding of `_next_free_ip` (lines 177-184): the first subnet host
not in the used set; `none` models the `RuntimeError` raised on
exhaustion. -/
def next_free_ip (used : List IPv4) : Option IPv4 :=
  subnetHosts.find? (fun ip => decide (ip ∉ used))

theorem mkHost_inj {j k : Nat} (h : mkHost j = mkHost k) : j = k := by
  simpa [mkHost, IPv4.mk.injEq] using h

theorem find?_range_some {p : Nat → Bool} :
    ∀ {n k : Nat}, (List.range n).find? p = some k →
      p k = true ∧ k < n ∧ ∀ j, j < k → p j = false := by
  intro n
  induction n with
  | zero => intro k h; rw [List.range_zero] at h; simp at h
  | succ m ih =>
    intro k h
    rw [List.range_succ, List.find?_append] at h
    cases hm : (List.range m).find? p with
    | some k0 =>
      rw [hm] at h
      simp only [Option.or_some] at h
      obtain rfl : k0 = k := by simpa using h
      obtain ⟨h1, h2, h3⟩ := ih hm
      exact ⟨h1, Nat.lt_succ_of_lt h2, h3⟩
    | none =>
      rw [hm] at h
      simp only [Option.none_or] at h
      have hall : ∀ j, j < m → p j = false := by
        intro j hj
        have := (List.find?_eq_none.mp hm) j (List.mem_range.mpr hj)
        simpa using this
      have hk : k = m ∧ p m = true := by
        cases hpm : p m with
        | true => simp [List.find?, hpm] at h; exact ⟨h.symm, rfl⟩
        | false => simp [List.find?, hpm] at h
      obtain ⟨rfl, hpm⟩ := hk
      exact ⟨hpm, Nat.lt_succ_self _, hall⟩

theorem find?_range_none {p : Nat → Bool} {n : Nat}
    (h : (List.range n).find? p = none) : ∀ j, j < n → p j = false := by
  intro j hj
  have := (List.find?_eq_none.mp h) j (List.mem_range.mpr hj)
  simpa using this

theorem next_free_ip_as_range (used : List IPv4) :
    next_free_ip used =
      ((List.range 254).find? (fun i => decide (mkHost (i + 1) ∉ used))).map
        (fun i => mkHost (i + 1)) := by
  unfold next_free_ip subnetHosts
  rw [List.find?_map]
  rfl

/-- C1.  The allocator builds the used set as the union of the reserved
server address `10.8.0.1`, the live allowed-ips addresses, and the
addresses parsed from artifact files; it walks the subnet hosts in
ascending order and returns the first host outside the used set, and it
fails (models the `RuntimeError`) exactly when every host is used. -/
theorem next_free_ip_spec (liveIps fileIps : List IPv4) :
    (∀ x, x ∈ used_ips liveIps fileIps ↔
        (x = serverIp ∨ x ∈ liveIps ∨ x ∈ fileIps)) ∧
    (∀ ip, next_free_ip (used_ips liveIps fileIps) = some ip →
        ∃ k, 1 ≤ k ∧ k ≤ 254 ∧ ip = mkHost k ∧
          ip ∉ used_ips liveIps fileIps ∧
          ∀ j, 1 ≤ j → j < k → mkHost j ∈ used_ips liveIps fileIps) ∧
    (next_free_ip (used_ips liveIps fileIps) = none →
        ∀ k, 1 ≤ k → k ≤ 254 → mkHost k ∈ used_ips liveIps fileIps) := by
  set u := used_ips liveIps fileIps with hu
  refine ⟨?_, ?_, ?_⟩
  · intro x
    simp [hu, used_ips, List.mem_cons, List.mem_append]
  · intro ip hip
    rw [next_free_ip_as_range] at hip
    rcases Option.map_eq_some'.mp hip with ⟨i, hfind, rfl⟩
    obtain ⟨h1, h2, h3⟩ := find?_range_some hfind
    refine ⟨i + 1, Nat.le_add_left 1 i, by omega, rfl, ?_, ?_⟩
    · exact of_decide_eq_true h1
    · intro j hj1 hjk
      obtain ⟨j0, rfl⟩ : ∃ j0, j = j0 + 1 := ⟨j - 1, by omega⟩
      have := h3 j0 (by omega)
      by_contra hcon
      rw [decide_eq_true hcon] at this
      exact Bool.true_eq_false.mp this
  · intro hnone k hk1 hk2
    rw [next_free_ip_as_range] at hnone
    have hfn : (List.range 254).find? (fun i => decide (mkHost (i + 1) ∉ u)) = none := by
      cases hf : (List.range 254).find? (fun i => decide (mkHost (i + 1) ∉ u)) with
      | none => rfl
      | some i => rw [hf] at hnone; simp at hnone
    have := find?_range_none hfn (k - 1) (by omega)
    have hk : k - 1 + 1 = k := by omega
    rw [hk] at this
    by_contra hcon
    rw [decide_eq_true hcon] at this
    exact Bool.true_eq_false.mp this

/-!
The world model.  `add_peer`, `revoke_peer` and `get_peer_conf_path`
read and mutate four locations: the live interface peer table (through
`wg set` / `wg show`), the persisted interface file `wg0.conf` (modelled
at the granularity of the appended peer blocks, which is what the code
reads back), the artifact files in `clients/` (modelled by base filename
and the address written on the file's `Address` line, the only content
`_used_ips` reads back), and the JSON store `bot_state.json` (its
`peers` mapping and `last_ip`; the unrelated owner/steps fields are
carried through every read-modify-write unchanged and are omitted).
-/

/-- One peer record of the store's `peers` mapping: `{"pub": .., "ip": ..}`
(line 237). -/
structure Peer where
  pub : String
  ip : IPv4
deriving DecidableEq, Repr

/-- The store document `bot_state.json`, restricted to the fields the
peer lifecycle touches (`peers` and `last_ip`, lines 236-238 and 286).
The mapping is an association list with unique keys, modelling a JSON
object in insertion order; `lastIp = none` models the initial `""`. -/
structure BotState where
  peers : List (String × Peer)
  lastIp : Option IPv4
deriving DecidableEq, Repr

/-- One peer block appended to `wg0.conf` (line 225): the comment marker
carrying the sanitized name, the public key, and the allowed-ips
address. -/
structure ConfBlock where
  name : String
  pub : String
  ip : IPv4
deriving DecidableEq, Repr

/-- The mutable world: readiness of the interface (`is_wireguard_ready`,
lines 79-83), the live peer table, the `wg0.conf` peer blocks, the
artifact files, and the store. -/
structure World where
  ready : Bool
  live : List (String × IPv4)
  conf : List ConfBlock
  clients : List (String × IPv4)
  store : BotState
deriving DecidableEq, Repr

/-- Oracle inputs for one `add_peer` call: whether
`wg show wg0 allowed-ips` succeeds (line 160), the generated keypair
(lines 145-152), and whether `wg set` succeeds (line 218). -/
structure AddEnv where
  showOk : Bool
  priv : String
  pub : String
  setOk : Bool
deriving DecidableEq, Repr

/-- Oracle input for one `revoke_peer` call: whether
`wg set ... remove` succeeds (line 270; its exit code is discarded). -/
structure RevokeEnv where
  removeOk : Bool
deriving DecidableEq, Repr

/-! Association-list operations mirroring Python dict / directory
operations: key membership, lookup, `d[k] = v` (update in place when the
key exists, append otherwise), and `d.pop(k, None)`. -/

def hasKey {α : Type} (l : List (String × α)) (k : String) : Bool :=
  l.any (fun p => decide (p.1 = k))

def lookupKey {α : Type} (l : List (String × α)) (k : String) : Option α :=
  (l.find? (fun p => decide (p.1 = k))).map (fun p => p.2)

def setKey {α : Type} (l : List (String × α)) (k : String) (v : α) :
    List (String × α) :=
  if hasKey l k then l.map (fun p => if p.1 = k then (k, v) else p)
  else l ++ [(k, v)]

def popKey {α : Type} (l : List (String × α)) (k : String) :
    List (String × α) :=
  l.filter (fun p => decide (p.1 ≠ k))

/-- Name sanitization as in `add_peer` (line 208):
`re.sub(r"[^a-zA-Z0-9_-]", "_", name)[:32]`.  A character is kept when it
is in `[a-zA-Z0-9_-]`. -/
def isAllowedChar (c : Char) : Bool :=
  (decide ('a' ≤ c) && decide (c ≤ 'z')) ||
  (decide ('A' ≤ c) && decide (c ≤ 'Z')) ||
  (decide ('0' ≤ c) && decide (c ≤ '9')) ||
  decide (c = '_') || decide (c = '-')

def sanitizeChar (c : Char) : Char :=
  if isAllowedChar c then c else '_'

def sanitize (s : String) : String :=
  String.mk ((s.data.map sanitizeChar).take 32)

/-- Errors `add_peer` raises (as `RuntimeError`, lines 207, 211, 184,
220). -/
inductive AddErr
  | notReady
  | duplicateName
  | subnetExhausted
  | wgSetFailed
deriving DecidableEq, Repr

/-- The live allowed-ips addresses as `_used_ips` sees them: the
addresses of the live table when `wg show` succeeds with output, nothing
otherwise (lines 159-168). -/
def liveAllowedIps (env : AddEnv) (w : World) : List IPv4 :=
  if env.showOk then w.live.map (fun p => p.2) else []

/-- The addresses parsed from the `Address` lines of the artifact files
(lines 170-174). -/
def clientFileIps (w : World) : List IPv4 :=
  w.clients.map (fun p => p.2)

/-- The used set `add_peer`'s allocation sees. -/
def add_used (env : AddEnv) (w : World) : List IPv4 :=
  used_ips (liveAllowedIps env w) (clientFileIps w)

/-- Embedding of `add_peer` (lines 205-241).  A raised exception is an
`error` result; mutations performed before the raise stay in the
returned world (there are none: every error is raised before the first
mutation).  `wg-quick save` (line 232) has its exit code discarded and
does not change the block-level view of `wg0.conf`. -/
def add_peer (env : AddEnv) (w : World) (name : String) :
    Except AddErr (String × IPv4) × World :=
  if !w.ready then (.error .notReady, w)
  else
    let safe := sanitize name
    if hasKey w.clients safe then (.error .duplicateName, w)
    else
      match next_free_ip (add_used env w) with
      | none => (.error .subnetExhausted, w)
      | some ip =>
        if !env.setOk then (.error .wgSetFailed, w)
        else
          (.ok (safe, ip),
           { w with
             live := w.live ++ [(env.pub, ip)]
             conf := w.conf ++ [⟨safe, env.pub, ip⟩]
             clients := w.clients ++ [(safe, ip)]
             store := { peers := setKey w.store.peers safe ⟨env.pub, ip⟩,
                        lastIp := some ip } })

/-- Embedding of `get_peer_conf_path` (lines 243-245): the artifact path
for the raw `name`, when that file exists. -/
def get_peer_conf_path (w : World) (name : String) : Option String :=
  if hasKey w.clients name then some (name ++ ".conf") else none

/-- Embedding of `revoke_peer` (lines 261-290).  The raw `name` is looked
up in the store; on a hit, the live removal command runs with its exit
code discarded, the matching blocks are removed from `wg0.conf`, the
artifact file is deleted (errors ignored), and the store record is
popped. -/
def revoke_peer (env : RevokeEnv) (w : World) (name : String) :
    (Bool × String) × World :=
  match lookupKey w.store.peers name with
  | none => ((false, "Peer not found."), w)
  | some peer =>
    ((true, "Peer revoked."),
     { w with
       live := if env.removeOk
               then w.live.filter (fun p => decide (p.1 ≠ peer.pub))
               else w.live
       conf := w.conf.filter
         (fun b => decide (¬ (b.name = name ∧ b.pub = peer.pub)))
       clients := w.clients.filter (fun p => decide (p.1 ≠ name))
       store := { peers := popKey w.store.peers name,
                  lastIp := w.store.lastIp } })

/-- One lifecycle operation with its oracle inputs. -/
inductive Op
  | add (env : AddEnv) (name : String)
  | revoke (env : RevokeEnv) (name : String)

/-- Apply one operation; an operation that fails leaves the world as the
failing call left it. -/
def step (w : World) (op : Op) : World :=
  match op with
  | .add env name => (add_peer env w name).2
  | .revoke env name => (revoke_peer env w name).2

def run (w : World) (ops : List Op) : World := ops.foldl step w

/-- The fresh state `ensure_paths` writes (lines 31-38), with the
interface installed and ready. -/
def freshWorld : World :=
  { ready := true, live := [], conf := [], clients := [],
    store := { peers := [], lastIp := none } }

/-! Association-list lemmas. -/

theorem hasKey_iff {α : Type} {l : List (String × α)} {k : String} :
    hasKey l k = true ↔ ∃ v, (k, v) ∈ l := by
  unfold hasKey
  rw [List.any_eq_true]
  constructor
  · rintro ⟨p, hp, hdec⟩
    have hk : p.1 = k := of_decide_eq_true hdec
    exact ⟨p.2, by rw [← hk]; exact hp⟩
  · rintro ⟨v, hv⟩
    exact ⟨(k, v), hv, by simp⟩

theorem hasKey_of_mem {α : Type} {l : List (String × α)} {k : String} {v : α}
    (h : (k, v) ∈ l) : hasKey l k = true :=
  hasKey_iff.mpr ⟨v, h⟩

theorem not_hasKey_iff {α : Type} {l : List (String × α)} {k : String} :
    hasKey l k = false ↔ ∀ p ∈ l, p.1 ≠ k := by
  unfold hasKey
  rw [← Bool.not_eq_true, List.any_eq_true]
  constructor
  · intro h p hp
    intro hk
    exact h ⟨p, hp, decide_eq_true hk⟩
  · rintro h ⟨p, hp, hdec⟩
    exact h p hp (of_decide_eq_true hdec)

theorem lookupKey_eq_none_iff {α : Type} {l : List (String × α)} {k : String} :
    lookupKey l k = none ↔ hasKey l k = false := by
  unfold lookupKey
  rw [Option.map_eq_none', List.find?_eq_none, not_hasKey_iff]
  constructor
  · intro h p hp hk
    exact h p hp (decide_eq_true hk)
  · intro h p hp hdec
    exact h p hp (of_decide_eq_true hdec)

theorem popKey_of_not_hasKey {α : Type} {l : List (String × α)} {k : String}
    (h : hasKey l k = false) : popKey l k = l := by
  unfold popKey
  rw [List.filter_eq_self]
  intro p hp
  exact decide_eq_true (not_hasKey_iff.mp h p hp)

theorem hasKey_popKey {α : Type} (l : List (String × α)) (k : String) :
    hasKey (popKey l k) k = false := by
  rw [not_hasKey_iff]
  intro p hp
  have := List.of_mem_filter hp
  exact of_decide_eq_true this

theorem setKey_of_not_hasKey {α : Type} {l : List (String × α)} {k : String}
    {v : α} (h : hasKey l k = false) : setKey l k v = l ++ [(k, v)] := by
  unfold setKey
  rw [h]
  simp

theorem mem_setKey {α : Type} {l : List (String × α)} {k : String} {v : α}
    {q : String × α} (h : q ∈ setKey l k v) : q = (k, v) ∨ q ∈ l := by
  unfold setKey at h
  split at h
  · rcases List.mem_map.mp h with ⟨p, hp, hq⟩
    by_cases hk : p.1 = k
    · left; rw [if_pos hk] at hq; exact hq.symm
    · right; rw [if_neg hk] at hq; exact hq ▸ hp
  · rcases List.mem_append.mp h with h1 | h1
    · right; exact h1
    · left; simpa using h1

theorem lookupKey_eq_none_of {α : Type} {l : List (String × α)} {k : String}
    (h : ∀ p ∈ l, p.1 ≠ k) : lookupKey l k = none :=
  lookupKey_eq_none_iff.mpr (not_hasKey_iff.mpr h)

theorem lookupKey_append_self {α : Type} {l : List (String × α)} {k : String}
    {v : α} (h : hasKey l k = false) : lookupKey (l ++ [(k, v)]) k = some v := by
  unfold lookupKey
  rw [List.find?_append]
  have h1 : l.find? (fun p => decide (p.1 = k)) = none := by
    rw [List.find?_eq_none]
    intro p hp hdec
    exact not_hasKey_iff.mp h p hp (of_decide_eq_true hdec)
  rw [h1]
  simp

/-! Sanitization lemmas. -/

theorem isAllowedChar_sanitizeChar (c : Char) :
    isAllowedChar (sanitizeChar c) = true := by
  unfold sanitizeChar
  by_cases h : isAllowedChar c = true
  · rw [if_pos h]; exact h
  · rw [if_neg h]; decide

theorem sanitizeChar_of_allowed {c : Char} (h : isAllowedChar c = true) :
    sanitizeChar c = c := by
  unfold sanitizeChar
  rw [if_pos h]

theorem sanitize_data (s : String) :
    (sanitize s).data = (s.data.map sanitizeChar).take 32 := rfl

theorem sanitize_length_le (s : String) : (sanitize s).length ≤ 32 := by
  show ((s.data.map sanitizeChar).take 32).length ≤ 32
  rw [List.length_take]
  exact min_le_left _ _

theorem mem_sanitize_allowed {s : String} {c : Char}
    (h : c ∈ (sanitize s).data) : isAllowedChar c = true := by
  rw [sanitize_data] at h
  have h2 := List.take_subset 32 _ h
  rcases List.mem_map.mp h2 with ⟨a, _, rfl⟩
  exact isAllowedChar_sanitizeChar a

theorem sanitize_idem (s : String) : sanitize (sanitize s) = sanitize s := by
  unfold sanitize
  congr 1
  have h1 : ((s.data.map sanitizeChar).take 32).map sanitizeChar =
      (s.data.map sanitizeChar).take 32 := by
    have : ∀ c ∈ (s.data.map sanitizeChar).take 32, sanitizeChar c = c := by
      intro c hc
      have h2 := List.take_subset 32 _ hc
      rcases List.mem_map.mp h2 with ⟨a, _, rfl⟩
      exact sanitizeChar_of_allowed (isAllowedChar_sanitizeChar a)
    calc ((s.data.map sanitizeChar).take 32).map sanitizeChar
        = ((s.data.map sanitizeChar).take 32).map id := List.map_congr_left this
      _ = (s.data.map sanitizeChar).take 32 := List.map_id _
  show ((String.mk ((s.data.map sanitizeChar).take 32)).data.map sanitizeChar).take 32
      = (s.data.map sanitizeChar).take 32
  rw [show (String.mk ((s.data.map sanitizeChar).take 32)).data
      = (s.data.map sanitizeChar).take 32 from rfl]
  rw [h1, List.take_take]
  simp

/-- Two raw names agree except at positions where both hold disallowed
characters. -/
def SameModuloDisallowed (n₁ n₂ : String) : Prop :=
  List.Forall₂
    (fun a b => a = b ∨ (isAllowedChar a = false ∧ isAllowedChar b = false))
    n₁.data n₂.data

theorem map_sanitizeChar_eq_of_forall₂ {l₁ l₂ : List Char}
    (h : List.Forall₂
      (fun a b => a = b ∨ (isAllowedChar a = false ∧ isAllowedChar b = false))
      l₁ l₂) : l₁.map sanitizeChar = l₂.map sanitizeChar := by
  induction h with
  | nil => rfl
  | cons hab _ ih =>
    simp only [List.map_cons, ih, List.cons.injEq, and_true]
    rcases hab with rfl | ⟨ha, hb⟩
    · rfl
    · unfold sanitizeChar
      rw [if_neg (by simp [ha]), if_neg (by simp [hb])]

theorem sanitize_eq_of_same {n₁ n₂ : String}
    (h : SameModuloDisallowed n₁ n₂) : sanitize n₁ = sanitize n₂ := by
  unfold sanitize
  rw [map_sanitizeChar_eq_of_forall₂ h]

/-! Shape lemmas for `add_peer` and `revoke_peer`. -/

theorem next_free_ip_not_mem {used : List IPv4} {ip : IPv4}
    (h : next_free_ip used = some ip) : ip ∉ used := by
  unfold next_free_ip at h
  have h2 := @List.find?_some IPv4 (fun x => decide (x ∉ used)) ip subnetHosts h
  exact of_decide_eq_true h2

theorem serverIp_mem_add_used (env : AddEnv) (w : World) :
    serverIp ∈ add_used env w := by
  simp [add_used, used_ips]

theorem clientFileIps_mem {w : World} {p : String × IPv4}
    (h : p ∈ w.clients) : p.2 ∈ add_used env w := by
  have h1 : p.2 ∈ clientFileIps w := List.mem_map.mpr ⟨p, h, rfl⟩
  simp [add_used, used_ips]
  right; right; exact h1

/-- Success shape of `add_peer`: a successful call implies every guard
passed and the returned world is the input world with the peer appended
to all four locations. -/
theorem add_peer_ok {env : AddEnv} {w : World} {name : String}
    {res : String × IPv4} (h : (add_peer env w name).1 = .ok res) :
    w.ready = true ∧ hasKey w.clients (sanitize name) = false ∧
    env.setOk = true ∧
    ∃ ip, next_free_ip (add_used env w) = some ip ∧
      res = (sanitize name, ip) ∧
      (add_peer env w name).2 =
        { ready := w.ready,
          live := w.live ++ [(env.pub, ip)],
          conf := w.conf ++ [⟨sanitize name, env.pub, ip⟩],
          clients := w.clients ++ [(sanitize name, ip)],
          store := { peers := setKey w.store.peers (sanitize name)
                       ⟨env.pub, ip⟩,
                     lastIp := some ip } } := by
  have hr : w.ready = true := by
    by_contra hc
    rw [Bool.not_eq_true] at hc
    simp [add_peer, hc] at h
  have hdup : hasKey w.clients (sanitize name) = false := by
    by_contra hc
    rw [Bool.not_eq_false] at hc
    simp [add_peer, hr, hc] at h
  cases hip : next_free_ip (add_used env w) with
  | none => exfalso; simp [add_peer, hr, hdup, hip] at h
  | some ip =>
    have hset : env.setOk = true := by
      by_contra hc
      rw [Bool.not_eq_true] at hc
      simp [add_peer, hr, hdup, hip, hc] at h
    have hres : res = (sanitize name, ip) := by
      simp [add_peer, hr, hdup, hip, hset] at h
      exact h.symm
    refine ⟨hr, hdup, hset, ip, rfl, hres, ?_⟩
    simp [add_peer, hr, hdup, hip, hset]

/-- Case split on `add_peer`: either the call failed and the world is
untouched, or it succeeded with the success shape. -/
theorem add_peer_world (env : AddEnv) (w : World) (name : String) :
    (add_peer env w name).2 = w ∨
    ∃ ip, next_free_ip (add_used env w) = some ip ∧
      hasKey w.clients (sanitize name) = false ∧
      (add_peer env w name).2 =
        { ready := w.ready,
          live := w.live ++ [(env.pub, ip)],
          conf := w.conf ++ [⟨sanitize name, env.pub, ip⟩],
          clients := w.clients ++ [(sanitize name, ip)],
          store := { peers := setKey w.store.peers (sanitize name)
                       ⟨env.pub, ip⟩,
                     lastIp := some ip } } := by
  by_cases hr : w.ready = true
  · by_cases hdup : hasKey w.clients (sanitize name) = true
    · left; simp [add_peer, hr, hdup]
    · rw [Bool.not_eq_true] at hdup
      cases hip : next_free_ip (add_used env w) with
      | none => left; simp [add_peer, hr, hdup, hip]
      | some ip =>
        by_cases hset : env.setOk = true
        · right
          exact ⟨ip, rfl, hdup, by simp [add_peer, hr, hdup, hip, hset]⟩
        · left
          rw [Bool.not_eq_true] at hset
          simp [add_peer, hr, hdup, hip, hset]
  · left
    rw [Bool.not_eq_true] at hr
    simp [add_peer, hr]

/-- Case split on `revoke_peer`: either the name is absent and the world
is untouched, or the record is found and the four locations are
filtered. -/
theorem revoke_peer_world (env : RevokeEnv) (w : World) (name : String) :
    ((revoke_peer env w name).2 = w ∧
      lookupKey w.store.peers name = none) ∨
    ∃ peer, lookupKey w.store.peers name = some peer ∧
      (revoke_peer env w name).2 =
        { ready := w.ready,
          live := if env.removeOk
                  then w.live.filter (fun p => decide (p.1 ≠ peer.pub))
                  else w.live,
          conf := w.conf.filter
            (fun b => decide (¬ (b.name = name ∧ b.pub = peer.pub))),
          clients := w.clients.filter (fun p => decide (p.1 ≠ name)),
          store := { peers := popKey w.store.peers name,
                     lastIp := w.store.lastIp } } := by
  unfold revoke_peer
  cases hlk : lookupKey w.store.peers name with
  | none => left; exact ⟨rfl, rfl⟩
  | some peer => right; exact ⟨peer, rfl, rfl⟩

/-! Reachability invariants over lifecycle operation sequences. -/

/-- Worlds reachable from a fresh state keep every store record backed by
its artifact file, the store addresses pairwise distinct, and the
reserved server address out of the store. -/
def WInv (w : World) : Prop :=
  (∀ kv ∈ w.store.peers, (kv.1, kv.2.ip) ∈ w.clients) ∧
  w.store.peers.Pairwise (fun a b => a.2.ip ≠ b.2.ip) ∧
  (∀ kv ∈ w.store.peers, kv.2.ip ≠ serverIp)

theorem add_preserves_WInv (env : AddEnv) (w : World) (name : String)
    (h : WInv w) : WInv (add_peer env w name).2 := by
  rcases add_peer_world env w name with heq | ⟨ip, hip, hdup, heq⟩
  · rw [heq]; exact h
  · rw [heq]
    obtain ⟨h1, h2, h3⟩ := h
    have hnm : ip ∉ add_used env w := next_free_ip_not_mem hip
    have hips : ∀ kv ∈ w.store.peers, kv.2.ip ≠ ip := by
      intro kv hkv hc
      exact hnm (hc ▸ clientFileIps_mem (h1 kv hkv))
    have hkeys : hasKey w.store.peers (sanitize name) = false := by
      rw [not_hasKey_iff]
      intro p hp hc
      have := hasKey_of_mem (hc ▸ h1 p hp)
      rw [hdup] at this
      exact Bool.false_ne_true this
    rw [setKey_of_not_hasKey hkeys]
    refine ⟨?_, ?_, ?_⟩
    · intro kv hkv
      rcases List.mem_append.mp hkv with hm | hm
      · exact List.mem_append.mpr (Or.inl (h1 kv hm))
      · simp only [List.mem_singleton] at hm
        subst hm
        exact List.mem_append.mpr (Or.inr (by simp))
    · rw [List.pairwise_append]
      refine ⟨h2, List.pairwise_singleton _ _, ?_⟩
      intro a ha b hb
      simp only [List.mem_singleton] at hb
      subst hb
      exact hips a ha
    · intro kv hkv
      rcases List.mem_append.mp hkv with hm | hm
      · exact h3 kv hm
      · simp only [List.mem_singleton] at hm
        subst hm
        intro hc
        change ip = serverIp at hc
        exact hnm (by rw [hc]; exact serverIp_mem_add_used env w)

theorem revoke_preserves_WInv (env : RevokeEnv) (w : World) (name : String)
    (h : WInv w) : WInv (revoke_peer env w name).2 := by
  rcases revoke_peer_world env w name with ⟨heq, _⟩ | ⟨peer, hlk, heq⟩
  · rw [heq]; exact h
  · rw [heq]
    obtain ⟨h1, h2, h3⟩ := h
    refine ⟨?_, ?_, ?_⟩
    · intro kv hkv
      have hkv' : kv ∈ w.store.peers.filter (fun p => decide (p.1 ≠ name)) :=
        hkv
      have hm := List.mem_of_mem_filter hkv'
      have hb := (List.mem_filter.mp hkv').2
      have hne : kv.1 ≠ name := of_decide_eq_true hb
      show (kv.1, kv.2.ip) ∈ w.clients.filter (fun p => decide (p.1 ≠ name))
      refine List.mem_filter.mpr ⟨h1 kv hm, ?_⟩
      exact decide_eq_true hne
    · show (w.store.peers.filter (fun p => decide (p.1 ≠ name))).Pairwise _
      exact List.Pairwise.filter (fun p => decide (p.1 ≠ name)) h2
    · intro kv hkv
      have hkv' : kv ∈ w.store.peers.filter (fun p => decide (p.1 ≠ name)) :=
        hkv
      exact h3 kv (List.mem_of_mem_filter hkv')

theorem step_preserves_WInv (w : World) (op : Op) (h : WInv w) :
    WInv (step w op) := by
  cases op with
  | add env name => exact add_preserves_WInv env w name h
  | revoke env name => exact revoke_preserves_WInv env w name h

theorem run_WInv_of (ops : List Op) :
    ∀ w : World, WInv w → WInv (run w ops) := by
  induction ops with
  | nil => intro w h; exact h
  | cons op rest ih =>
    intro w h
    exact ih (step w op) (step_preserves_WInv w op h)

theorem WInv_fresh : WInv freshWorld := by
  refine ⟨?_, ?_, ?_⟩ <;> simp [freshWorld]

theorem run_WInv (ops : List Op) : WInv (run freshWorld ops) :=
  run_WInv_of ops freshWorld WInv_fresh

/-- Worlds reachable from a fresh state have every artifact filename and
every store key equal to its own sanitization (they were all produced by
`add_peer`, which keys both by the sanitized name). -/
def KeysSanitized (w : World) : Prop :=
  (∀ kv ∈ w.clients, sanitize kv.1 = kv.1) ∧
  (∀ kv ∈ w.store.peers, sanitize kv.1 = kv.1)

theorem step_preserves_KeysSanitized (w : World) (op : Op)
    (h : KeysSanitized w) : KeysSanitized (step w op) := by
  obtain ⟨h1, h2⟩ := h
  cases op with
  | add env name =>
    show KeysSanitized (add_peer env w name).2
    rcases add_peer_world env w name with heq | ⟨ip, _, _, heq⟩
    · rw [heq]; exact ⟨h1, h2⟩
    · rw [heq]
      constructor
      · intro kv hkv
        rcases List.mem_append.mp hkv with hm | hm
        · exact h1 kv hm
        · simp only [List.mem_singleton] at hm
          subst hm
          exact sanitize_idem name
      · intro kv hkv
        rcases mem_setKey hkv with hm | hm
        · subst hm
          exact sanitize_idem name
        · exact h2 kv hm
  | revoke env name =>
    show KeysSanitized (revoke_peer env w name).2
    rcases revoke_peer_world env w name with ⟨heq, _⟩ | ⟨peer, _, heq⟩
    · rw [heq]; exact ⟨h1, h2⟩
    · rw [heq]
      constructor
      · intro kv hkv
        have hkv' : kv ∈ w.clients.filter (fun p => decide (p.1 ≠ name)) :=
          hkv
        exact h1 kv (List.mem_of_mem_filter hkv')
      · intro kv hkv
        have hkv' : kv ∈ w.store.peers.filter (fun p => decide (p.1 ≠ name)) :=
          hkv
        exact h2 kv (List.mem_of_mem_filter hkv')

theorem run_KeysSanitized (ops : List Op) :
    KeysSanitized (run freshWorld ops) := by
  have hbase : KeysSanitized freshWorld := by
    constructor <;> simp [freshWorld]
  have hstep : ∀ w : World, KeysSanitized w →
      KeysSanitized (run w ops) := by
    induction ops with
    | nil => intro w h; exact h
    | cons op rest ih =>
      intro w h
      exact ih (step w op) (step_preserves_KeysSanitized w op h)
  exact hstep freshWorld hbase

/-- Equation for a hit in `revoke_peer`. -/
theorem revoke_peer_found {w : World} {name : String} {peer : Peer}
    (h : lookupKey w.store.peers name = some peer) (env : RevokeEnv) :
    revoke_peer env w name =
      ((true, "Peer revoked."),
       { ready := w.ready,
         live := if env.removeOk
                 then w.live.filter (fun p => decide (p.1 ≠ peer.pub))
                 else w.live,
         conf := w.conf.filter
           (fun b => decide (¬ (b.name = name ∧ b.pub = peer.pub))),
         clients := w.clients.filter (fun p => decide (p.1 ≠ name)),
         store := { peers := popKey w.store.peers name,
                    lastIp := w.store.lastIp } }) := by
  unfold revoke_peer
  rw [h]

/-- Equation for a miss in `revoke_peer`. -/
theorem revoke_peer_missing {w : World} {name : String}
    (h : lookupKey w.store.peers name = none) (env : RevokeEnv) :
    revoke_peer env w name = ((false, "Peer not found."), w) := by
  unfold revoke_peer
  rw [h]

theorem popKey_append_self {α : Type} {l : List (String × α)} {k : String}
    {v : α} (h : hasKey l k = false) : popKey (l ++ [(k, v)]) k = l := by
  unfold popKey
  rw [List.filter_append]
  have h1 := popKey_of_not_hasKey h
  unfold popKey at h1
  rw [h1]
  simp

/-- Equation for the duplicate-name failure of `add_peer`. -/
theorem add_peer_duplicate_of {env : AddEnv} {w : World} {name : String}
    (hr : w.ready = true)
    (hdup : hasKey w.clients (sanitize name) = true) :
    add_peer env w name = (.error .duplicateName, w) := by
  simp [add_peer, hr, hdup]

/-! Claim theorems. -/

/-- C2.  Along every sequence of lifecycle operations from the fresh
state, the store never holds two records with the same address and never
holds the reserved server address; moreover every address a successful
`add_peer` assigns is outside the used set it computed, and the reserved
server address is always in that used set. -/
theorem address_uniqueness_invariant (ops : List Op) :
    ((run freshWorld ops).store.peers.Pairwise (fun a b => a.2.ip ≠ b.2.ip) ∧
     ∀ kv ∈ (run freshWorld ops).store.peers, kv.2.ip ≠ serverIp) ∧
    (∀ (env : AddEnv) (w : World) (name : String) (res : String × IPv4),
        (add_peer env w name).1 = .ok res → res.2 ∉ add_used env w) ∧
    (∀ (env : AddEnv) (w : World), serverIp ∈ add_used env w) := by
  refine ⟨⟨(run_WInv ops).2.1, (run_WInv ops).2.2⟩, ?_, serverIp_mem_add_used⟩
  intro env w name res h
  obtain ⟨_, _, _, ip, hip, hres, _⟩ := add_peer_ok h
  rw [hres]
  exact next_free_ip_not_mem hip

/-- A world whose store holds a peer named `a` while no artifact file for
`a` exists. -/
def storeOnlyWorld : World :=
  { ready := true, live := [], conf := [], clients := [],
    store := { peers := [("a", ⟨"PK", mkHost 2⟩)], lastIp := none } }

/-- C3 counterexample.  The sanitized name `a` collides with an active
peer record in the store, yet `add_peer` succeeds (returning an address
and mutating the world) instead of failing with DuplicateName: the code
checks only for an existing artifact file (line 210). -/
theorem add_peer_store_collision_cex :
    hasKey storeOnlyWorld.store.peers (sanitize "a") = true ∧
    add_peer ⟨true, "pv", "PK2", true⟩ storeOnlyWorld "a" =
      (Except.ok ("a", mkHost 2),
       { ready := true, live := [("PK2", mkHost 2)],
         conf := [⟨"a", "PK2", mkHost 2⟩], clients := [("a", mkHost 2)],
         store := { peers := [("a", ⟨"PK2", mkHost 2⟩)],
                    lastIp := some (mkHost 2) } }) := by
  exact ⟨rfl, rfl⟩

/-- C3 (amended).  When the sanitized name collides with an existing
artifact file, `add_peer` fails with DuplicateName and performs no
mutation; a collision with only an active store record is not checked;
in particular the second of two `add_peer` calls with the same name
fails this way, because the first call created the artifact file. -/
theorem add_peer_duplicate_spec :
    (∀ (env : AddEnv) (w : World) (name : String),
        w.ready = true → hasKey w.clients (sanitize name) = true →
        add_peer env w name = (.error .duplicateName, w)) ∧
    (∀ (env env' : AddEnv) (w : World) (name : String) (res : String × IPv4),
        (add_peer env w name).1 = .ok res →
        add_peer env' (add_peer env w name).2 name =
          (.error .duplicateName, (add_peer env w name).2)) := by
  constructor
  · intro env w name hr hdup
    exact add_peer_duplicate_of hr hdup
  · intro env env' w name res h
    obtain ⟨hr, hdup, hset, ip, hip, hres, hshape⟩ := add_peer_ok h
    have hr' : (add_peer env w name).2.ready = true := by
      rw [hshape]; exact hr
    have hmem : (sanitize name, ip) ∈ w.clients ++ [(sanitize name, ip)] :=
      List.mem_append.mpr (Or.inr (by simp))
    have hdup' : hasKey (add_peer env w name).2.clients (sanitize name)
        = true := by
      rw [hshape]
      exact hasKey_of_mem hmem
    exact add_peer_duplicate_of hr' hdup'

/-- A world whose store already holds a record named `a` (with no
matching artifact file), exhibiting the failure of C4's unrestricted
quantification over store states. -/
def staleStoreWorld : World :=
  { ready := true, live := [], conf := [], clients := [],
    store := { peers := [("a", ⟨"OLD", mkHost 9⟩)], lastIp := none } }

/-- C4 counterexample.  Starting from a store that already maps `a`,
`add_peer "a"` succeeds (the duplicate check consults only the artifact
files) and overwrites the record; the following `revoke_peer "a"` then
pops it, leaving the peer mapping empty rather than restoring the
original one-record mapping. -/
theorem add_then_revoke_cex :
    staleStoreWorld.store.peers = [("a", ⟨"OLD", mkHost 9⟩)] ∧
    (add_peer ⟨true, "pv", "PK", true⟩ staleStoreWorld "a").1 =
      Except.ok ("a", mkHost 2) ∧
    (revoke_peer ⟨true⟩
        (add_peer ⟨true, "pv", "PK", true⟩ staleStoreWorld "a").2
        "a").2.store.peers = [] := by
  exact ⟨rfl, rfl, rfl⟩

/-- C4 (amended).  For every store state whose peer mapping does not
already contain the name, and every name that sanitizes to itself, a
successful `add_peer name` followed by `revoke_peer name` returns the
store's peer mapping to its pre-add state, with only `last_ip` possibly
changed; a second `revoke_peer name` then returns NotFound. -/
theorem add_then_revoke_spec (env : AddEnv) (renv renv₂ : RevokeEnv)
    (w : World) (name : String) (res : String × IPv4)
    (hs : sanitize name = name)
    (hk : hasKey w.store.peers name = false)
    (hadd : (add_peer env w name).1 = .ok res) :
    (revoke_peer renv (add_peer env w name).2 name).2.store.peers =
      w.store.peers ∧
    (revoke_peer renv (add_peer env w name).2 name).2.store.lastIp =
      some res.2 ∧
    (revoke_peer renv₂
        (revoke_peer renv (add_peer env w name).2 name).2 name).1 =
      (false, "Peer not found.") := by
  obtain ⟨hr, hdup, hset, ip, hip, hres, hshape⟩ := add_peer_ok hadd
  have hpeers : (add_peer env w name).2.store.peers =
      w.store.peers ++ [(name, ⟨env.pub, ip⟩)] := by
    rw [hshape]
    show setKey w.store.peers (sanitize name) ⟨env.pub, ip⟩ = _
    rw [hs, setKey_of_not_hasKey hk]
  have hlast : (add_peer env w name).2.store.lastIp = some ip := by
    rw [hshape]
  have hlk : lookupKey (add_peer env w name).2.store.peers name =
      some ⟨env.pub, ip⟩ := by
    rw [hpeers]
    exact lookupKey_append_self hk
  have hrev1 := revoke_peer_found hlk renv
  have h1 : (revoke_peer renv (add_peer env w name).2 name).2.store.peers
      = w.store.peers := by
    rw [hrev1]
    show popKey (add_peer env w name).2.store.peers name = w.store.peers
    rw [hpeers]
    exact popKey_append_self hk
  refine ⟨h1, ?_, ?_⟩
  · rw [hrev1]
    show (add_peer env w name).2.store.lastIp = some res.2
    rw [hlast, hres]
  · have hnone : lookupKey
        (revoke_peer renv (add_peer env w name).2 name).2.store.peers name
        = none := by
      rw [h1]
      exact lookupKey_eq_none_iff.mpr hk
    rw [revoke_peer_missing hnone renv₂]

set_option maxRecDepth 8000 in
/-- The closed instance for the C4 witness: a fresh world, one add of
`a`, one revoke, one repeated revoke. -/
theorem add_then_revoke_witness :
    (revoke_peer ⟨true⟩
        (add_peer ⟨true, "pv", "PK", true⟩ freshWorld "a").2
        "a").2.store.peers = freshWorld.store.peers ∧
    (revoke_peer ⟨true⟩
        (add_peer ⟨true, "pv", "PK", true⟩ freshWorld "a").2
        "a").2.store.lastIp = some ("a", mkHost 2).2 ∧
    (revoke_peer ⟨false⟩
        (revoke_peer ⟨true⟩
          (add_peer ⟨true, "pv", "PK", true⟩ freshWorld "a").2
          "a").2 "a").1 = (false, "Peer not found.") :=
  add_then_revoke_spec ⟨true, "pv", "PK", true⟩ ⟨true⟩ ⟨false⟩ freshWorld
    "a" ("a", mkHost 2) (by decide) rfl rfl

/-- C5.  Revoking a name absent from the store's peer mapping returns
NotFound and leaves the whole world unchanged, whatever stale entries
the live table or the interface file hold. -/
theorem revoke_absent_spec (env : RevokeEnv) (w : World) (name : String)
    (h : lookupKey w.store.peers name = none) :
    revoke_peer env w name = ((false, "Peer not found."), w) := by
  unfold revoke_peer
  rw [h]

/-- A world holding a stale `ghost` entry in the live table and the
interface file only. -/
def ghostWorld : World :=
  { ready := true, live := [("GHOSTPK", mkHost 5)],
    conf := [⟨"ghost", "GHOSTPK", mkHost 5⟩], clients := [],
    store := { peers := [], lastIp := none } }

theorem revoke_absent_witness :
    revoke_peer ⟨true⟩ ghostWorld "ghost" =
      ((false, "Peer not found."), ghostWorld) :=
  revoke_absent_spec ⟨true⟩ ghostWorld "ghost" rfl

/-- C6.  When the allocation step inside `add_peer` finds no free host,
the call fails with SubnetExhausted and the world is exactly as before:
no live registration, no interface-file append, no artifact file, no
store write. -/
theorem add_peer_exhausted_spec (env : AddEnv) (w : World) (name : String)
    (hr : w.ready = true)
    (hdup : hasKey w.clients (sanitize name) = false)
    (hex : next_free_ip (add_used env w) = none) :
    add_peer env w name = (.error .subnetExhausted, w) := by
  simp [add_peer, hr, hdup, hex]

/-- A world whose artifact files already use all 254 host addresses. -/
def fullWorld : World :=
  { ready := true, live := [], conf := [],
    clients := (List.range 254).map (fun i => ("c", mkHost (i + 1))),
    store := { peers := [], lastIp := none } }

set_option maxRecDepth 100000 in
theorem add_peer_exhausted_witness :
    add_peer ⟨true, "pv", "PK", true⟩ fullWorld "x" =
      (.error .subnetExhausted, fullWorld) :=
  add_peer_exhausted_spec ⟨true, "pv", "PK", true⟩ fullWorld "x" rfl
    (by rfl) (by rfl)

/-- C7.  Sanitization is a pure function of the raw name (the embedding
is a Lean function, so determinism is inherent); its output has at most
32 characters, all from `[A-Za-z0-9_-]`; names differing only at
positions where both are disallowed sanitize identically, and adding a
peer under one then attempting the other yields DuplicateName with no
mutation. -/
theorem sanitize_spec :
    (∀ s : String, (sanitize s).length ≤ 32 ∧
        ∀ c ∈ (sanitize s).data, isAllowedChar c = true) ∧
    (∀ n₁ n₂ : String, SameModuloDisallowed n₁ n₂ →
        sanitize n₁ = sanitize n₂) ∧
    (∀ (env env' : AddEnv) (w : World) (n₁ n₂ : String)
        (res : String × IPv4),
        SameModuloDisallowed n₁ n₂ →
        (add_peer env w n₁).1 = .ok res →
        add_peer env' (add_peer env w n₁).2 n₂ =
          (.error .duplicateName, (add_peer env w n₁).2)) := by
  refine ⟨fun s => ⟨sanitize_length_le s, fun c hc => mem_sanitize_allowed hc⟩,
    fun n₁ n₂ h => sanitize_eq_of_same h, ?_⟩
  intro env env' w n₁ n₂ res hsame h
  obtain ⟨hr, hdup, hset, ip, hip, hres, hshape⟩ := add_peer_ok h
  have hr' : (add_peer env w n₁).2.ready = true := by
    rw [hshape]; exact hr
  have h2 : sanitize n₂ = sanitize n₁ := (sanitize_eq_of_same hsame).symm
  have hmem : (sanitize n₁, ip) ∈ w.clients ++ [(sanitize n₁, ip)] :=
    List.mem_append.mpr (Or.inr (by simp))
  have hdup' : hasKey (add_peer env w n₁).2.clients (sanitize n₂)
      = true := by
    rw [hshape, h2]
    exact hasKey_of_mem hmem
  exact add_peer_duplicate_of hr' hdup'

/-- A world holding an artifact file only for `a_b`, the sanitized form
of `a b`, with an empty store. -/
def orphanWorld : World :=
  { ready := true, live := [], conf := [], clients := [("a_b", mkHost 2)],
    store := { peers := [], lastIp := none } }

/-- C8 counterexample.  The artifact for the sanitized form of `a b`
exists, yet `get_peer_conf_path "a b"` returns nothing: the lookup uses
the raw name (line 244), not the sanitized one the claim describes. -/
theorem get_peer_conf_path_cex :
    sanitize "a b" = "a_b" ∧
    hasKey orphanWorld.clients (sanitize "a b") = true ∧
    get_peer_conf_path orphanWorld "a b" = none := by
  exact ⟨rfl, rfl, rfl⟩

/-- C8 (amended).  `get_peer_conf_path` is a pure lookup at the location
derived from the raw name, with no sanitization applied: it never reads
the store, and returns the artifact path exactly when the file named by
the raw name exists — in particular it still succeeds for an artifact
whose store entry is gone. -/
theorem get_peer_conf_path_spec :
    (∀ (w : World) (name : String),
        (get_peer_conf_path w name).isSome = hasKey w.clients name) ∧
    (∀ (w : World) (s : BotState) (name : String),
        get_peer_conf_path { w with store := s } name =
          get_peer_conf_path w name) ∧
    (∀ (w : World) (name : String),
        hasKey w.clients name = true →
        lookupKey w.store.peers name = none →
        get_peer_conf_path w name = some (name ++ ".conf")) := by
  refine ⟨?_, ?_, ?_⟩
  · intro w name
    cases h : hasKey w.clients name <;> simp [get_peer_conf_path, h]
  · intro w s name
    rfl
  · intro w name h _
    simp [get_peer_conf_path, h]

/-- C9.  For a name present in the store, `revoke_peer` discards the
exit code of `wg set ... remove`: for every oracle value — in
particular a failing removal command — it still reports success, edits
the interface file, deletes the artifact file, and removes the store
record, exactly as it does when the command succeeds. -/
theorem revoke_ignores_remove_failure (w : World) (name : String)
    (peer : Peer) (h : lookupKey w.store.peers name = some peer)
    (env : RevokeEnv) :
    (revoke_peer env w name).1 = (true, "Peer revoked.") ∧
    lookupKey (revoke_peer env w name).2.store.peers name = none ∧
    hasKey (revoke_peer env w name).2.clients name = false ∧
    (∀ b ∈ (revoke_peer env w name).2.conf,
        ¬ (b.name = name ∧ b.pub = peer.pub)) ∧
    (revoke_peer env w name).2.conf = (revoke_peer ⟨true⟩ w name).2.conf ∧
    (revoke_peer env w name).2.clients =
      (revoke_peer ⟨true⟩ w name).2.clients ∧
    (revoke_peer env w name).2.store =
      (revoke_peer ⟨true⟩ w name).2.store := by
  rw [revoke_peer_found h env, revoke_peer_found h ⟨true⟩]
  refine ⟨rfl, ?_, ?_, ?_, rfl, rfl, rfl⟩
  · show lookupKey (popKey w.store.peers name) name = none
    exact lookupKey_eq_none_iff.mpr (hasKey_popKey _ _)
  · show hasKey (w.clients.filter (fun p => decide (p.1 ≠ name))) name
        = false
    rw [not_hasKey_iff]
    intro p hp
    exact of_decide_eq_true (List.mem_filter.mp hp).2
  · intro b hb
    have hb' : b ∈ w.conf.filter
        (fun b => decide (¬ (b.name = name ∧ b.pub = peer.pub))) := hb
    exact of_decide_eq_true (List.mem_filter.mp hb').2

/-- A one-peer world for the C9 witness. -/
def revokeWorld : World :=
  { ready := true, live := [("PK", mkHost 2)],
    conf := [⟨"a", "PK", mkHost 2⟩], clients := [("a", mkHost 2)],
    store := { peers := [("a", ⟨"PK", mkHost 2⟩)],
               lastIp := some (mkHost 2) } }

theorem revoke_ignores_remove_failure_witness :
    (revoke_peer ⟨false⟩ revokeWorld "a").1 = (true, "Peer revoked.") :=
  (revoke_ignores_remove_failure revokeWorld "a" ⟨"PK", mkHost 2⟩ rfl
    ⟨false⟩).1

/-- Every store key of a world satisfying the reachability invariant
whose artifact file is missing is itself missing. -/
theorem store_key_absent_of_clients {w : World} (hI : WInv w) {k : String}
    (h : hasKey w.clients k = false) : hasKey w.store.peers k = false := by
  rw [not_hasKey_iff]
  intro p hp hc
  have := hasKey_of_mem (hc ▸ hI.1 p hp)
  rw [h] at this
  exact Bool.false_ne_true this

/-- C10.  `add_peer` records the peer and its artifact under the
sanitized name, while `revoke_peer` and `get_peer_conf_path` look up the
raw name unsanitized: for every world reachable from the fresh state and
every raw name that does not sanitize to itself, after a successful
`add_peer name` the record and the artifact are found under the
sanitized name, while `revoke_peer name` returns NotFound and
`get_peer_conf_path name` returns nothing. -/
theorem raw_name_lookup_spec (ops : List Op) (env : AddEnv)
    (renv : RevokeEnv) (name : String) (res : String × IPv4)
    (hneq : sanitize name ≠ name)
    (hok : (add_peer env (run freshWorld ops) name).1 = .ok res) :
    lookupKey (add_peer env (run freshWorld ops) name).2.store.peers
        (sanitize name) = some ⟨env.pub, res.2⟩ ∧
    get_peer_conf_path (add_peer env (run freshWorld ops) name).2
        (sanitize name) = some (sanitize name ++ ".conf") ∧
    (revoke_peer renv (add_peer env (run freshWorld ops) name).2 name).1 =
      (false, "Peer not found.") ∧
    get_peer_conf_path (add_peer env (run freshWorld ops) name).2 name =
      none := by
  have hks := run_KeysSanitized ops
  have hI := run_WInv ops
  obtain ⟨hr, hdup, hset, ip, hip, hres, hshape⟩ := add_peer_ok hok
  have hnk : ∀ k : String, sanitize k = k → k ≠ name := by
    intro k hk hc
    exact hneq (by rw [← hc]; exact hk)
  have hstore : hasKey (run freshWorld ops).store.peers (sanitize name)
      = false := store_key_absent_of_clients hI hdup
  have hpeers : (add_peer env (run freshWorld ops) name).2.store.peers =
      (run freshWorld ops).store.peers ++
        [(sanitize name, ⟨env.pub, ip⟩)] := by
    rw [hshape]
    show setKey (run freshWorld ops).store.peers (sanitize name)
        ⟨env.pub, ip⟩ = _
    rw [setKey_of_not_hasKey hstore]
  have hclients : (add_peer env (run freshWorld ops) name).2.clients =
      (run freshWorld ops).clients ++ [(sanitize name, ip)] := by
    rw [hshape]
  refine ⟨?_, ?_, ?_, ?_⟩
  · rw [hpeers, hres]
    exact lookupKey_append_self hstore
  · have hmem : (sanitize name, ip) ∈
        (run freshWorld ops).clients ++ [(sanitize name, ip)] :=
      List.mem_append.mpr (Or.inr (by simp))
    have hhk : hasKey
        (add_peer env (run freshWorld ops) name).2.clients (sanitize name)
        = true := by
      rw [hclients]
      exact hasKey_of_mem hmem
    simp [get_peer_conf_path, hhk]
  · have hnone : lookupKey
        (add_peer env (run freshWorld ops) name).2.store.peers name
        = none := by
      rw [hpeers]
      apply lookupKey_eq_none_of
      intro p hp
      rcases List.mem_append.mp hp with hm | hm
      · exact hnk p.1 (hks.2 p hm)
      · simp only [List.mem_singleton] at hm
        subst hm
        exact hnk (sanitize name) (sanitize_idem name)
    rw [revoke_peer_missing hnone renv]
  · have hhk : hasKey
        (add_peer env (run freshWorld ops) name).2.clients name
        = false := by
      rw [hclients, not_hasKey_iff]
      intro p hp
      rcases List.mem_append.mp hp with hm | hm
      · exact hnk p.1 (hks.1 p hm)
      · simp only [List.mem_singleton] at hm
        subst hm
        exact hnk (sanitize name) (sanitize_idem name)
    simp [get_peer_conf_path, hhk]

theorem raw_name_lookup_witness :
    lookupKey (add_peer ⟨true, "pv", "PK", true⟩ (run freshWorld [])
        "a b").2.store.peers (sanitize "a b") =
      some ⟨"PK", ("a_b", mkHost 2).2⟩ :=
  (raw_name_lookup_spec [] ⟨true, "pv", "PK", true⟩ ⟨true⟩ "a b"
    ("a_b", mkHost 2) (by decide) rfl).1

end WgCore
